import Mathlib

/-
Verification of the process-topology and work-distribution layer of
mbxaspy (src/para_defs.py and src/rixs.py).

The pure arithmetic of pool construction (pool_class.set_pool), of the two
spin/k-point assignment algorithms (pool_class.set_sk_list_v1 and
pool_class.set_sk_list) and of the maximum reduction used in rixs.rixs_f1
is embedded as executable Lean functions, and the spec-level properties
are proved about those functions.
-/

/- ### Shared contiguous-split arithmetic

Both pool_class.set_pool (contiguous mode) and pool_class.set_sk_list
split a range of m items into n nearly equal blocks: block i starts at
q * i + min rsk i and holds q items, plus one extra when i < rsk
(q the quotient, rsk the remainder of the split). -/

/-- Start of the i-th contiguous block: the arithmetic pattern
q * i + min rsk i of pool_class.set_sk_list (start_k) and of the block
layout realised by pool_class.set_pool in contiguous mode. -/
def cstart (q rsk i : Nat) : Nat := q * i + min rsk i

/-- Size of the i-th contiguous block: q items plus one extra for the
first rsk blocks. -/
def clen (q rsk i : Nat) : Nat := q + if i < rsk then 1 else 0

/- ### para_defs.pool_class, embedded -/

/-- The contiguous-mode pool index formula of pool_class.set_pool
(lines 64-68): res = size % npp, then rank / (npp + 1) below the
res * (npp + 1) boundary and (rank - res * (npp + 1)) / npp + res
above it. -/
def contiguousId (npp res r : Nat) : Nat :=
  if r < res * (npp + 1) then r / (npp + 1)
  else (r - res * (npp + 1)) / npp + res

/-- pool_class.set_pool, lines 54-68: the pool index self.i computed for a
given global rank, for size total processes and requested minimum pool
size M = nproc_per_pool; M is first clamped to size when it exceeds size
(lines 55-58). -/
def poolIndex (size M : Nat) (remainderMode : Bool) (rank : Nat) : Nat :=
  let npp := if size < M then size else M
  let n := size / npp
  if remainderMode then rank % n
  else contiguousId npp (size % npp) rank

/-- pool_class.set_pool, line 59: self.n, the number of pools, computed
from the clamped minimum pool size. -/
def nPools (size M : Nat) : Nat :=
  let npp := if size < M then size else M
  size / npp

/-- The ranks owned by pool i: the colour groups produced by
comm.Split(self.i, para.rank) in pool_class.set_pool (lines 72-77). -/
def poolMembers (size M : Nat) (remainderMode : Bool) (i : Nat) : List Nat :=
  (List.range size).filter (fun r => poolIndex size M remainderMode r == i)

/-- The rank within the pool (pool_class.set_pool line 80):
comm.Split(colour, key = para.rank) orders the members of a colour group
by global rank, so the intra-pool rank of r counts the lower global ranks
in the same pool. -/
def intraRank (size M : Nat) (remainderMode : Bool) (r : Nat) : Nat :=
  ((List.range r).filter
    (fun q => poolIndex size M remainderMode q == poolIndex size M remainderMode r)).length

/-- pool_class.set_pool, lines 82-84: the gathered vector of intra-pool
ranks is indexed by global rank, and self.roots keeps the global ranks
whose intra-pool rank is 0. -/
def poolRoots (size M : Nat) (remainderMode : Bool) : List Nat :=
  (List.range size).filter (fun r => intraRank size M remainderMode r == 0)

/-- pool_class.set_sk_list_v1 (lines 129-140): the (spin, k) tuples
assigned to pool i, collected over s in range nspin, k in range nk_use,
keeping the tuples whose offset s * nk + k satisfies
offset % n == i (n the number of pools). -/
def sk_list_v1 (nspin nk nk_use n i : Nat) : List (Nat × Nat) :=
  (List.range nspin).flatMap fun s =>
    (List.range nk_use).filterMap fun k =>
      if (s * nk + k) % n == i then some (s, k) else none

/-- pool_class.set_sk_list_v1: the global offsets s * nk + k collected in
the same loops as sk_list_v1. -/
def sk_offset_v1 (nspin nk nk_use n i : Nat) : List Nat :=
  (List.range nspin).flatMap fun s =>
    (List.range nk_use).filterMap fun k =>
      if (s * nk + k) % n == i then some (s * nk + k) else none

/-- pool_class.set_sk_list (lines 155-169): nk_per_pool = nk_use / n,
resk = nk_use % n, start_k = nk_per_pool * i + min resk i, and pool i
collects (s, k) for k in range(start_k, start_k + nk_per_pool +
int(i < resk)) and s in range(nspin), k-major and spin-minor. -/
def sk_list (nspin nk nk_use n i : Nat) : List (Nat × Nat) :=
  let nk_per_pool := nk_use / n
  let resk := nk_use % n
  let start_k := nk_per_pool * i + min resk i
  (List.range' start_k (nk_per_pool + if i < resk then 1 else 0)).flatMap fun k =>
    (List.range nspin).map fun s => (s, k)

/-- pool_class.set_sk_list: the global offsets s * nk + k collected in the
same loops as sk_list. -/
def sk_offset (nspin nk nk_use n i : Nat) : List Nat :=
  let nk_per_pool := nk_use / n
  let resk := nk_use % n
  let start_k := nk_per_pool * i + min resk i
  (List.range' start_k (nk_per_pool + if i < resk then 1 else 0)).flatMap fun k =>
    (List.range nspin).map fun s => s * nk + k

/-- The attributes of a pool_class object that pool_class.set_pool may
assign (none = attribute never assigned; for the communicator slots,
some none models an attribute assigned the Python value None and
some (some ()) an attribute holding a real communicator object).
pool_class.__init__ only sets up = False. -/
structure PoolState where
  npp : Option Nat := none
  n : Option Nat := none
  i : Option Nat := none
  comm : Option (Option Unit) := none
  rank : Option Nat := none
  size : Option Nat := none
  roots : Option (List Nat) := none
  rootcomm : Option (Option Unit) := none
  up : Bool := false
deriving DecidableEq

/-- The pool object as left by pool_class.__init__ (line 21-25):
up = False and no other attribute assigned. -/
def init_pool : PoolState := {}

/-- pool_class.set_pool (lines 53-94) as a state transformer.  The body
runs only under the guard nproc_per_pool > 0; the function never raises,
which the Except wrapper records by always returning Except.ok. -/
def set_pool (paraSize paraRank : Nat) (commPresent : Bool)
    (nproc_per_pool : Int) (remainder_mode : Bool) (st : PoolState) :
    Except String PoolState :=
  if 0 < nproc_per_pool then
    let M := nproc_per_pool.toNat
    let i := poolIndex paraSize M remainder_mode paraRank
    if commPresent then
      Except.ok { st with
        npp := some (if paraSize < M then paraSize else M)
        n := some (nPools paraSize M)
        i := some i
        comm := some (some ())
        size := some (poolMembers paraSize M remainder_mode i).length
        rank := some (intraRank paraSize M remainder_mode paraRank)
        roots := some (poolRoots paraSize M remainder_mode)
        rootcomm := some (some ())
        up := true }
    else
      Except.ok { st with
        npp := some (if paraSize < M then paraSize else M)
        n := some (nPools paraSize M)
        i := some i
        comm := some none
        rank := some 0
        size := some 1
        rootcomm := some none
        roots := some [0]
        up := true }
  else Except.ok st

/- ### The spec formulas for the pool index (section 4.1 of the spec),
written from the spec text, to be compared with poolIndex. -/

/-- Modelled from the spec text of section 4.1: remainder policy, pool id
of rank r = r mod N with N = floor(P / M) after clamping M to P. -/
def specPoolIdRemainder (P M r : Nat) : Nat :=
  r % (P / min M P)

/-- Modelled from the spec text of section 4.1: contiguous policy, with
M clamped to P and R = P mod M, pool id of rank r is r / (M + 1) when
r < R * (M + 1) and (r - R * (M + 1)) / M + R otherwise. -/
def specPoolIdContiguous (P M r : Nat) : Nat :=
  let Mc := min M P
  let R := P % Mc
  if r < R * (Mc + 1) then r / (Mc + 1)
  else (r - R * (Mc + 1)) / Mc + R

/- ### rixs.rixs_f1, lines 151-155: the maximum reduction -/

/-- rixs.rixs_f1 lines 151-153: the local maximum of the magnitudes held
on one process, accumulated by max starting from 0. -/
def Mv1c1_max (vals : List ℚ) : ℚ := vals.foldl max 0

/-- rixs.rixs_f1 lines 154-155: comm.allreduce(..., op = MPI.MAX) of the
per-process local maxima, one list of magnitudes per process. -/
def Mv1c1_max_allreduce (parts : List (List ℚ)) : ℚ :=
  (parts.map Mv1c1_max).foldl max 0

/- ### Lemmas on the contiguous-split arithmetic -/

lemma cstart_succ (q rsk i : Nat) :
    cstart q rsk (i + 1) = cstart q rsk i + clen q rsk i := by
  simp only [cstart, clen, Nat.mul_succ]
  split <;> omega

lemma cstart_mono (q rsk : Nat) {i j : Nat} (h : i ≤ j) :
    cstart q rsk i ≤ cstart q rsk j := by
  have hm : q * i ≤ q * j := Nat.mul_le_mul_left q h
  simp only [cstart]
  omega

lemma cstart_last (q rsk n : Nat) (h : rsk ≤ n) :
    cstart q rsk n = q * n + rsk := by
  simp only [cstart]
  omega

/-- The n contiguous blocks laid end to end tile an initial segment. -/
lemma blocks_tile (q rsk : Nat) :
    ∀ j, ((List.range j).flatMap fun i => List.range' (cstart q rsk i) (clen q rsk i))
      = List.range (cstart q rsk j)
  | 0 => by simp [cstart]
  | j + 1 => by
    rw [List.range_succ, List.flatMap_append, blocks_tile q rsk j, cstart_succ,
      List.range_add, List.flatMap_singleton, List.range'_eq_map_range]

lemma block_le_total (q rsk n i : Nat) (hrs : rsk ≤ n) (hi : i < n) :
    cstart q rsk i + clen q rsk i ≤ q * n + rsk := by
  have h1 : cstart q rsk (i + 1) ≤ cstart q rsk n := cstart_mono q rsk hi
  rw [cstart_succ] at h1
  rw [cstart_last q rsk n hrs] at h1
  exact h1

lemma blocks_unique (q rsk : Nat) {i j k : Nat}
    (hi1 : cstart q rsk i ≤ k) (hi2 : k < cstart q rsk i + clen q rsk i)
    (hj1 : cstart q rsk j ≤ k) (hj2 : k < cstart q rsk j + clen q rsk j) :
    i = j := by
  rcases Nat.lt_trichotomy i j with h | h | h
  · exfalso
    have : cstart q rsk (i + 1) ≤ cstart q rsk j := cstart_mono q rsk h
    rw [cstart_succ] at this
    omega
  · exact h
  · exfalso
    have : cstart q rsk (j + 1) ≤ cstart q rsk i := cstart_mono q rsk h
    rw [cstart_succ] at this
    omega

lemma blocks_cover (q rsk n k : Nat) (hrs : rsk ≤ n) (hk : k < q * n + rsk) :
    ∃ i, i < n ∧ cstart q rsk i ≤ k ∧ k < cstart q rsk i + clen q rsk i := by
  have hk2 : k ∈ List.range (cstart q rsk n) := by
    rw [List.mem_range, cstart_last q rsk n hrs]
    exact hk
  rw [← blocks_tile q rsk n, List.mem_flatMap] at hk2
  obtain ⟨i, hi, hmem⟩ := hk2
  rw [List.mem_range] at hi
  rw [List.mem_range'_1] at hmem
  exact ⟨i, hi, hmem.1, hmem.2⟩

/- ### Lemmas on the work-tuple assignment algorithms -/

lemma sk_v1_inner_fst {nk n i s : Nat} {p : Nat × Nat} (nk_use : Nat)
    (hp : p ∈ (List.range nk_use).filterMap fun k =>
      if (s * nk + k) % n == i then some (s, k) else none) :
    p.1 = s := by
  rw [List.mem_filterMap] at hp
  obtain ⟨k1, _, hk⟩ := hp
  split at hk
  · cases hk
    rfl
  · exact absurd hk (by simp)

lemma mem_sk_list_v1 (nspin nk nk_use n i s k : Nat) :
    (s, k) ∈ sk_list_v1 nspin nk nk_use n i ↔
      s < nspin ∧ k < nk_use ∧ (s * nk + k) % n = i := by
  simp only [sk_list_v1, List.mem_flatMap, List.mem_filterMap, List.mem_range]
  constructor
  · rintro ⟨s1, hs1, k1, hk1, hif⟩
    split at hif
    · next hc =>
      simp only [Option.some.injEq, Prod.mk.injEq] at hif
      obtain ⟨h1, h2⟩ := hif
      subst h1
      subst h2
      exact ⟨hs1, hk1, by simpa using hc⟩
    · exact absurd hif (by simp)
  · rintro ⟨hs, hk, hmod⟩
    refine ⟨s, hs, k, hk, ?_⟩
    simp [hmod]

lemma nodup_sk_list_v1 (nspin nk nk_use n i : Nat) :
    (sk_list_v1 nspin nk nk_use n i).Nodup := by
  rw [sk_list_v1, List.nodup_flatMap]
  constructor
  · intro s hs
    refine List.Nodup.filterMap ?_ (List.nodup_range nk_use)
    intro a a' b hb hb'
    simp only [Option.mem_def] at hb hb'
    split at hb
    · split at hb'
      · cases hb
        cases hb'.symm
        rfl
      · exact absurd hb' (by simp)
    · exact absurd hb (by simp)
  · refine List.Pairwise.imp ?_ (List.nodup_range nspin)
    intro s1 s2 hne p hp1 hp2
    have e1 := sk_v1_inner_fst nk_use hp1
    have e2 := sk_v1_inner_fst nk_use hp2
    exact hne (e1 ▸ e2 ▸ rfl)

lemma mem_sk_list (nspin nk nk_use n i s k : Nat) :
    (s, k) ∈ sk_list nspin nk nk_use n i ↔
      s < nspin ∧ cstart (nk_use / n) (nk_use % n) i ≤ k ∧
        k < cstart (nk_use / n) (nk_use % n) i + clen (nk_use / n) (nk_use % n) i := by
  simp only [sk_list, List.mem_flatMap, List.mem_map, List.mem_range'_1,
    List.mem_range, cstart, clen]
  constructor
  · rintro ⟨k1, hk1, s1, hs1, hp⟩
    have h1 : s1 = s := congrArg Prod.fst hp
    have h2 : k1 = k := congrArg Prod.snd hp
    subst h1
    subst h2
    exact ⟨hs1, hk1.1, hk1.2⟩
  · rintro ⟨hs, h1, h2⟩
    exact ⟨k, ⟨h1, h2⟩, s, hs, rfl⟩

lemma nodup_sk_list (nspin nk nk_use n i : Nat) :
    (sk_list nspin nk nk_use n i).Nodup := by
  rw [sk_list, List.nodup_flatMap]
  constructor
  · intro k hk
    refine List.Nodup.map ?_ (List.nodup_range nspin)
    intro a b hab
    exact congrArg Prod.fst hab
  · refine List.Pairwise.imp ?_ (List.nodup_range' _ _)
    intro k1 k2 hne p hp1 hp2
    rw [List.mem_map] at hp1 hp2
    obtain ⟨s1, _, e1⟩ := hp1
    obtain ⟨s2, _, e2⟩ := hp2
    have f1 : p.2 = k1 := (congrArg Prod.snd e1).symm
    have f2 : p.2 = k2 := (congrArg Prod.snd e2).symm
    exact hne (f1 ▸ f2)

lemma length_flatMap_pairs (nspin : Nat) :
    ∀ L : List Nat,
      (L.flatMap fun k => (List.range nspin).map fun s => (s, k)).length
        = L.length * nspin
  | [] => by simp
  | a :: t => by
    simp only [List.flatMap_cons, List.length_append, List.length_map,
      List.length_range, length_flatMap_pairs nspin t, List.length_cons]
    simp [Nat.succ_mul]
    omega

lemma length_sk_list (nspin nk nk_use n i : Nat) :
    (sk_list nspin nk nk_use n i).length
      = clen (nk_use / n) (nk_use % n) i * nspin := by
  simp only [sk_list, length_flatMap_pairs, List.length_range', clen]

lemma sk_offset_v1_eq (nspin nk nk_use n i : Nat) :
    sk_offset_v1 nspin nk nk_use n i =
      (sk_list_v1 nspin nk nk_use n i).map fun p => p.1 * nk + p.2 := by
  unfold sk_offset_v1 sk_list_v1
  rw [List.map_flatMap]
  congr 1
  funext s
  rw [List.map_filterMap]
  congr 1
  funext k
  split <;> rfl

/-- C1: for every nspin >= 1, nk_use >= 1, nk >= nk_use and pool count
n >= 1, under both the striped policy (set_sk_list_v1) and the block
policy (set_sk_list) the pool lists partition the work space
{(s, k) : s < nspin, k < nk_use}: every pool list is free of duplicates,
every pool list stays inside the work space, and every work tuple lies in
exactly one pool list. -/
theorem C1_theorem (nspin nk nk_use n : Nat) (h1 : 1 ≤ nspin) (h2 : 1 ≤ nk_use)
    (h3 : nk_use ≤ nk) (h4 : 1 ≤ n) :
    (∀ i, (sk_list_v1 nspin nk nk_use n i).Nodup) ∧
    (∀ i, (sk_list nspin nk nk_use n i).Nodup) ∧
    (∀ i p, i < n → p ∈ sk_list_v1 nspin nk nk_use n i →
      p.1 < nspin ∧ p.2 < nk_use) ∧
    (∀ i p, i < n → p ∈ sk_list nspin nk nk_use n i →
      p.1 < nspin ∧ p.2 < nk_use) ∧
    (∀ s k, s < nspin → k < nk_use →
      ∃! i, i < n ∧ (s, k) ∈ sk_list_v1 nspin nk nk_use n i) ∧
    (∀ s k, s < nspin → k < nk_use →
      ∃! i, i < n ∧ (s, k) ∈ sk_list nspin nk nk_use n i) := by
  have hrs : nk_use % n ≤ n := Nat.le_of_lt (Nat.mod_lt _ h4)
  have htot : nk_use / n * n + nk_use % n = nk_use := by
    have := Nat.div_add_mod nk_use n
    have e : nk_use / n * n = n * (nk_use / n) := Nat.mul_comm _ _
    omega
  refine ⟨fun i => nodup_sk_list_v1 nspin nk nk_use n i,
    fun i => nodup_sk_list nspin nk nk_use n i, ?_, ?_, ?_, ?_⟩
  · rintro i ⟨ps, pk⟩ hi hp
    have := (mem_sk_list_v1 nspin nk nk_use n i ps pk).mp hp
    exact ⟨this.1, this.2.1⟩
  · rintro i ⟨ps, pk⟩ hi hp
    have h := (mem_sk_list nspin nk nk_use n i ps pk).mp hp
    have hb := block_le_total (nk_use / n) (nk_use % n) n i hrs hi
    exact ⟨h.1, by omega⟩
  · intro s k hs hk
    refine ⟨(s * nk + k) % n, ⟨Nat.mod_lt _ h4,
      (mem_sk_list_v1 nspin nk nk_use n _ s k).mpr ⟨hs, hk, rfl⟩⟩, ?_⟩
    rintro j ⟨hj, hmem⟩
    exact ((mem_sk_list_v1 nspin nk nk_use n j s k).mp hmem).2.2.symm
  · intro s k hs hk
    obtain ⟨i, hi, hlo, hhi⟩ :=
      blocks_cover (nk_use / n) (nk_use % n) n k hrs (by omega)
    refine ⟨i, ⟨hi, (mem_sk_list nspin nk nk_use n i s k).mpr ⟨hs, hlo, hhi⟩⟩, ?_⟩
    rintro j ⟨hj, hmem⟩
    have h := (mem_sk_list nspin nk nk_use n j s k).mp hmem
    exact blocks_unique (nk_use / n) (nk_use % n) h.2.1 h.2.2 hlo hhi

/-- C1 witness: in the concrete case nspin = 2, nk = nk_use = 5, n = 3,
the work tuple (1, 4) lies in exactly one block-policy pool list. -/
theorem C1_witness : ∃! i, i < 3 ∧ ((1 : Nat), (4 : Nat)) ∈ sk_list 2 5 5 3 i :=
  (C1_theorem 2 5 5 3 (by decide) (by decide) (by decide)
    (by decide)).2.2.2.2.2 1 4 (by decide) (by decide)

/-- C5: the block policy of pool_class.set_sk_list splits the k-range
into contiguous blocks of size nk_use / n, the first nk_use % n pools
getting one extra k-index; a pool owns all spin values for each k-index
of its block (list length nspin per k-index), and in the concrete case
nspin = 2, nk = 5, nk_use = 5, n = 3 the pool lists and pool-0 offsets
are exactly the ones stated by the spec. -/
theorem C5_theorem :
    (∀ nspin nk nk_use n i s k,
      (s, k) ∈ sk_list nspin nk nk_use n i ↔
        s < nspin ∧ cstart (nk_use / n) (nk_use % n) i ≤ k ∧
          k < cstart (nk_use / n) (nk_use % n) i + clen (nk_use / n) (nk_use % n) i) ∧
    (∀ nspin nk nk_use n i,
      (sk_list nspin nk nk_use n i).length
        = clen (nk_use / n) (nk_use % n) i * nspin) ∧
    sk_list 2 5 5 3 0 = [(0, 0), (1, 0), (0, 1), (1, 1)] ∧
    sk_offset 2 5 5 3 0 = [0, 5, 1, 6] ∧
    sk_list 2 5 5 3 1 = [(0, 2), (1, 2), (0, 3), (1, 3)] ∧
    sk_list 2 5 5 3 2 = [(0, 4), (1, 4)] :=
  ⟨fun nspin nk nk_use n i s k => mem_sk_list nspin nk nk_use n i s k,
    fun nspin nk nk_use n i => length_sk_list nspin nk nk_use n i,
    by decide, by decide, by decide, by decide⟩

/-- C6: the striped policy of pool_class.set_sk_list_v1 assigns the work
tuple (s, k) to pool (s * nk + k) % n, its sk_offset entries are exactly
the global offsets s * nk + k of its sk_list entries, and in the concrete
case nspin = 2, nk = 5, nk_use = 5, n = 3 pool 0 holds
[(0,0), (0,3), (1,1), (1,4)] with offsets [0, 3, 6, 9]. -/
theorem C6_theorem :
    (∀ nspin nk nk_use n i s k,
      (s, k) ∈ sk_list_v1 nspin nk nk_use n i ↔
        s < nspin ∧ k < nk_use ∧ (s * nk + k) % n = i) ∧
    (∀ nspin nk nk_use n i,
      sk_offset_v1 nspin nk nk_use n i =
        (sk_list_v1 nspin nk nk_use n i).map fun p => p.1 * nk + p.2) ∧
    sk_list_v1 2 5 5 3 0 = [(0, 0), (0, 3), (1, 1), (1, 4)] ∧
    sk_offset_v1 2 5 5 3 0 = [0, 3, 6, 9] :=
  ⟨fun nspin nk nk_use n i s k => mem_sk_list_v1 nspin nk nk_use n i s k,
    fun nspin nk nk_use n i => sk_offset_v1_eq nspin nk nk_use n i,
    by decide, by decide⟩

/- ### Lemmas on the contiguous pool placement of set_pool -/

lemma contiguousId_of_block (npp res i r : Nat) (hnpp : 1 ≤ npp)
    (hlo : cstart npp res i ≤ r) (hhi : r < cstart npp res i + clen npp res i) :
    contiguousId npp res r = i := by
  by_cases hir : i < res
  · have hmin : min res i = i := by omega
    simp only [cstart, hmin, clen, if_pos hir] at hlo hhi
    have e1 : i * (npp + 1) = npp * i + i := by ring
    have e2 : (i + 1) * (npp + 1) = npp * i + i + (npp + 1) := by ring
    have hb : r < res * (npp + 1) := by
      have h3 : (i + 1) * (npp + 1) ≤ res * (npp + 1) :=
        Nat.mul_le_mul_right _ (by omega)
      omega
    rw [contiguousId, if_pos hb]
    exact Nat.div_eq_of_lt_le (by omega) (by omega)
  · have hmin : min res i = res := by omega
    simp only [cstart, hmin, clen, if_neg hir] at hlo hhi
    set d := i - res with hd
    have hi2 : i = res + d := by omega
    have e1 : npp * i = npp * res + npp * d := by rw [hi2]; ring
    have e2 : res * (npp + 1) = npp * res + res := by ring
    have hb : ¬ r < res * (npp + 1) := by
      have h3 : npp * res ≤ npp * i := Nat.mul_le_mul_left _ (by omega)
      omega
    rw [contiguousId, if_neg hb]
    have e3 : d * npp = npp * d := by ring
    have e4 : (d + 1) * npp = npp * d + npp := by ring
    have h5 : (r - res * (npp + 1)) / npp = d :=
      Nat.div_eq_of_lt_le (by omega) (by omega)
    omega

lemma contiguousId_mono (npp res r : Nat) (hnpp : 1 ≤ npp) :
    contiguousId npp res r ≤ contiguousId npp res (r + 1) := by
  unfold contiguousId
  by_cases h2 : r + 1 < res * (npp + 1)
  · rw [if_pos (by omega), if_pos h2]
    exact Nat.div_le_div_right (by omega)
  · by_cases h1 : r < res * (npp + 1)
    · rw [if_pos h1, if_neg h2]
      have hr : r / (npp + 1) ≤ res := by
        have h3 : r ≤ res * (npp + 1) := by omega
        have h4 : r / (npp + 1) ≤ res * (npp + 1) / (npp + 1) :=
          Nat.div_le_div_right h3
        rw [Nat.mul_div_cancel res (by omega)] at h4
        exact h4
      exact le_trans hr (Nat.le_add_left res _)
    · rw [if_neg h1, if_neg h2]
      have h6 : (r - res * (npp + 1)) / npp ≤ (r + 1 - res * (npp + 1)) / npp :=
        Nat.div_le_div_right (by omega)
      omega

lemma clamp_eq_min (P M : Nat) : (if P < M then P else M) = min M P := by
  split <;> omega

lemma poolIndex_false_eq (P M r : Nat) :
    poolIndex P M false r = contiguousId (min M P) (P % min M P) r := by
  simp [poolIndex, clamp_eq_min]

lemma poolIndex_true_eq (P M r : Nat) :
    poolIndex P M true r = r % (P / min M P) := by
  simp [poolIndex, clamp_eq_min]

lemma nPools_eq (P M : Nat) : nPools P M = P / min M P := by
  simp [nPools, clamp_eq_min]

lemma flatMap_eq_of_single {α : Type} (L : List α) (g : Nat → List α) :
    ∀ n i, i < n → (∀ j, j < n → g j = if j = i then L else []) →
      (List.range n).flatMap g = L := by
  intro n
  induction n with
  | zero => omega
  | succ m ih =>
    intro i hi hg
    rw [List.range_succ, List.flatMap_append, List.flatMap_singleton]
    by_cases him : i = m
    · subst him
      have h1 : (List.range i).flatMap g = [] := by
        apply List.flatMap_eq_nil_iff.mpr
        intro x hx
        rw [List.mem_range] at hx
        rw [hg x (by omega), if_neg (by omega)]
      rw [h1, hg i (by omega), if_pos rfl]
      simp
    · have hi2 : i < m := by omega
      rw [ih i hi2 (fun j hj => hg j (by omega)), hg m (by omega),
        if_neg (by omega)]
      simp

lemma poolMembers_contiguous (P M : Nat) (hM : 1 ≤ M) (hP : 1 ≤ P)
    (hres : P % min M P ≤ P / min M P) (i : Nat) (hi : i < P / min M P) :
    poolMembers P M false i
      = List.range' (cstart (min M P) (P % min M P) i)
          (clen (min M P) (P % min M P) i) := by
  have hnpp : 1 ≤ min M P := le_min hM hP
  have htot : min M P * (P / min M P) + P % min M P = P :=
    Nat.div_add_mod P (min M P)
  have hcn : cstart (min M P) (P % min M P) (P / min M P) = P := by
    rw [cstart_last _ _ _ hres]
    omega
  have hrange : List.range P
      = (List.range (P / min M P)).flatMap fun j =>
          List.range' (cstart (min M P) (P % min M P) j)
            (clen (min M P) (P % min M P) j) := by
    rw [blocks_tile (min M P) (P % min M P) (P / min M P), hcn]
  unfold poolMembers
  rw [hrange, List.filter_flatMap]
  apply flatMap_eq_of_single _ _ _ i hi
  intro j hj
  by_cases hji : j = i
  · subst hji
    rw [if_pos rfl]
    apply List.filter_eq_self.mpr
    intro r hr
    rw [List.mem_range'_1] at hr
    have he : poolIndex P M false r = j := by
      rw [poolIndex_false_eq]
      exact contiguousId_of_block _ _ j r hnpp hr.1 hr.2
    simp [he]
  · rw [if_neg hji]
    apply List.filter_eq_nil_iff.mpr
    intro r hr
    rw [List.mem_range'_1] at hr
    have he : poolIndex P M false r = j := by
      rw [poolIndex_false_eq]
      exact contiguousId_of_block _ _ j r hnpp hr.1 hr.2
    simp [he, hji]

/-- C2: the claim fails on the code.  At P = 5, M = 3 (so the clamped
minimum pool size is 3 and N = floor(5 / 3) = 1) the contiguous placement
gives rank 4 the pool id 1, which does not lie in [0, N), and the
resulting pool 1 holds a single rank, fewer than the minimum pool size. -/
theorem C2_bug_eval :
    nPools 5 3 = 1 ∧ poolIndex 5 3 false 4 = 1 ∧
    ¬ poolIndex 5 3 false 4 < nPools 5 3 ∧
    (poolMembers 5 3 false 1).length = 1 := by decide

/-- C3 counterexample: at P = 5, M = 3 (which satisfies M ≤ P) the claim
that each of the first R = P mod M = 2 pools has size M + 1 is false:
pool 1 has size 1, not 4. -/
theorem C3_counterexample :
    ¬ (∀ i, i < 5 % 3 → (poolMembers 5 3 false i).length = 3 + 1) := by
  decide

/-- C3 amended: under the contiguous policy, for every P ≥ 1, M ≥ 1 with
M ≤ P, pool ids are non-decreasing as the rank increases; and provided
additionally P mod M ≤ floor(P / M) (the regime in which the code's block
layout is consistent with its pool count), with R = P mod M the first R
pools have size M + 1 while the remaining pools have size M. -/
theorem C3_amended (P M : Nat) (hM : 1 ≤ M) (hMP : M ≤ P) :
    (∀ r, r + 1 < P → poolIndex P M false r ≤ poolIndex P M false (r + 1)) ∧
    (P % M ≤ P / M →
      ∀ i, i < P / M →
        (poolMembers P M false i).length = if i < P % M then M + 1 else M) := by
  have hmin : min M P = M := Nat.min_eq_left hMP
  constructor
  · intro r _
    rw [poolIndex_false_eq, poolIndex_false_eq]
    exact contiguousId_mono _ _ r (by omega)
  · intro hres i hi
    have h2 : P % min M P ≤ P / min M P := by rw [hmin]; exact hres
    have h3 : i < P / min M P := by rw [hmin]; exact hi
    rw [poolMembers_contiguous P M hM (by omega) h2 i h3,
      List.length_range', hmin]
    simp only [clen]
    split <;> omega

/-- C3 witness: at P = 10, M = 3 the first pool (pool 0, which is among
the first R = 1 pools) has size M + 1 = 4. -/
theorem C3_witness :
    (poolMembers 10 3 false 0).length = if 0 < 10 % 3 then 3 + 1 else 3 :=
  (C3_amended 10 3 (by decide) (by decide)).2 (by decide) 0 (by decide)

/-- C4: for every P ≥ 1, M ≥ 1 and rank r < P, the pool index computed by
pool_class.set_pool coincides with the spec formulas of section 4.1:
r mod N in remainder mode, and the R-boundary division formula in
contiguous mode (both after clamping M to P). -/
theorem C4_theorem (P M r : Nat) (hP : 1 ≤ P) (hM : 1 ≤ M) (hr : r < P) :
    poolIndex P M true r = specPoolIdRemainder P M r ∧
    poolIndex P M false r = specPoolIdContiguous P M r := by
  constructor
  · rw [poolIndex_true_eq]
    rfl
  · rw [poolIndex_false_eq]
    rfl

/-- C4 witness: the formula agreement evaluated at P = 10, M = 3, r = 7. -/
theorem C4_witness :
    poolIndex 10 3 true 7 = specPoolIdRemainder 10 3 7 ∧
    poolIndex 10 3 false 7 = specPoolIdContiguous 10 3 7 :=
  C4_theorem 10 3 7 (by decide) (by decide) (by decide)

/- ### Lemmas on the pool roots (set_pool lines 79-86) -/

lemma intraRank_contiguous (P M npp i r : Nat) (hnpp : 1 ≤ npp)
    (hpe : ∀ q, poolIndex P M false q = contiguousId npp (P % npp) q)
    (hres : P % npp ≤ P / npp) (hi : i < P / npp)
    (hlo : cstart npp (P % npp) i ≤ r)
    (hhi : r < cstart npp (P % npp) i + clen npp (P % npp) i) :
    intraRank P M false r = r - cstart npp (P % npp) i := by
  have htot : npp * (P / npp) + P % npp = P := Nat.div_add_mod P npp
  have hrP : r < P := by
    have hb := block_le_total npp (P % npp) (P / npp) i hres hi
    omega
  have hre : poolIndex P M false r = i := by
    rw [hpe r]
    exact contiguousId_of_block _ _ i r hnpp hlo hhi
  unfold intraRank
  rw [hre]
  have hsplit : List.range r
      = List.range (cstart npp (P % npp) i)
        ++ (List.range (r - cstart npp (P % npp) i)).map
            (cstart npp (P % npp) i + ·) := by
    rw [← List.range_add]
    congr 1
    omega
  rw [hsplit, List.filter_append, List.length_append]
  have f1 : (List.range (cstart npp (P % npp) i)).filter
      (fun q => poolIndex P M false q == i) = [] := by
    apply List.filter_eq_nil_iff.mpr
    intro q hq
    rw [List.mem_range] at hq
    obtain ⟨j, hj, hjlo, hjhi⟩ :=
      blocks_cover npp (P % npp) (P / npp) q hres (by omega)
    have hq2 : poolIndex P M false q = j := by
      rw [hpe q]
      exact contiguousId_of_block _ _ j q hnpp hjlo hjhi
    simp only [hq2, beq_iff_eq]
    intro hji
    subst hji
    omega
  have f2 : ((List.range (r - cstart npp (P % npp) i)).map
      (cstart npp (P % npp) i + ·)).filter (fun q => poolIndex P M false q == i)
      = (List.range (r - cstart npp (P % npp) i)).map
          (cstart npp (P % npp) i + ·) := by
    apply List.filter_eq_self.mpr
    intro q hq
    rw [List.mem_map] at hq
    obtain ⟨x, hx, rfl⟩ := hq
    rw [List.mem_range] at hx
    have hq2 : poolIndex P M false (cstart npp (P % npp) i + x) = i := by
      rw [hpe]
      exact contiguousId_of_block _ _ i _ hnpp (by omega) (by omega)
    simp [hq2]
  rw [f1, f2]
  simp

lemma poolRoots_contiguous (P M npp : Nat) (hnpp : 1 ≤ npp)
    (hpe : ∀ q, poolIndex P M false q = contiguousId npp (P % npp) q)
    (hres : P % npp ≤ P / npp) :
    poolRoots P M false
      = (List.range (P / npp)).map (cstart npp (P % npp)) := by
  have htot : npp * (P / npp) + P % npp = P := Nat.div_add_mod P npp
  have hcn : cstart npp (P % npp) (P / npp) = P := by
    rw [cstart_last _ _ _ hres]
    omega
  have hrange : List.range P
      = (List.range (P / npp)).flatMap fun j =>
          List.range' (cstart npp (P % npp) j) (clen npp (P % npp) j) := by
    rw [blocks_tile, hcn]
  unfold poolRoots
  rw [hrange, List.filter_flatMap]
  have hblk : ∀ j ∈ List.range (P / npp),
      (List.range' (cstart npp (P % npp) j) (clen npp (P % npp) j)).filter
        (fun r => intraRank P M false r == 0) = [cstart npp (P % npp) j] := by
    intro j hj
    rw [List.mem_range] at hj
    have hcl : 1 ≤ clen npp (P % npp) j := by
      simp only [clen]
      split <;> omega
    obtain ⟨t, ht⟩ : ∃ t, clen npp (P % npp) j = t + 1 :=
      ⟨clen npp (P % npp) j - 1, by omega⟩
    rw [ht, List.range'_succ, List.filter_cons]
    have h0 : intraRank P M false (cstart npp (P % npp) j) = 0 := by
      have h := intraRank_contiguous P M npp j (cstart npp (P % npp) j)
        hnpp hpe hres hj (le_refl _) (by omega)
      omega
    have hrest : (List.range' (cstart npp (P % npp) j + 1) t).filter
        (fun r => intraRank P M false r == 0) = [] := by
      apply List.filter_eq_nil_iff.mpr
      intro q hq
      rw [List.mem_range'_1] at hq
      have h := intraRank_contiguous P M npp j q hnpp hpe hres hj
        (by omega) (by omega)
      simp only [beq_iff_eq, h]
      omega
    simp [h0, hrest]
  rw [List.flatMap_congr hblk, ← List.map_eq_flatMap]

lemma intraRank_remainder_zero_iff (P M n : Nat) (hn : 1 ≤ n)
    (hpe : ∀ q, poolIndex P M true q = q % n) (r : Nat) :
    intraRank P M true r = 0 ↔ r < n := by
  unfold intraRank
  constructor
  · intro h0
    by_contra hge
    push_neg at hge
    rw [List.length_eq_zero] at h0
    have hmem : r % n ∈ List.range r := by
      rw [List.mem_range]
      have : r % n < n := Nat.mod_lt _ (by omega)
      omega
    apply List.filter_eq_nil_iff.mp h0 _ hmem
    simp only [hpe, beq_iff_eq]
    exact Nat.mod_eq_of_lt (Nat.mod_lt r (by omega))
  · intro hlt
    rw [List.length_eq_zero]
    apply List.filter_eq_nil_iff.mpr
    intro q hq
    rw [List.mem_range] at hq
    simp only [hpe, beq_iff_eq]
    have e1 : q % n = q := Nat.mod_eq_of_lt (by omega)
    have e2 : r % n = r := Nat.mod_eq_of_lt hlt
    omega

lemma poolRoots_remainder (P M n : Nat) (hn : 1 ≤ n) (hnP : n ≤ P)
    (hpe : ∀ q, poolIndex P M true q = q % n) :
    poolRoots P M true = List.range n := by
  unfold poolRoots
  have hc : ∀ r ∈ List.range P,
      (intraRank P M true r == 0) = decide (r < n) := by
    intro r hr
    have hiff := intraRank_remainder_zero_iff P M n hn hpe r
    by_cases h : r < n
    · simp [h, hiff.mpr h]
    · have hz : intraRank P M true r ≠ 0 := fun hc0 => h (hiff.mp hc0)
      simp [h, hz]
  rw [List.filter_congr hc]
  have hsplit : List.range P
      = List.range n ++ (List.range (P - n)).map (n + ·) := by
    rw [← List.range_add]
    congr 1
    omega
  rw [hsplit, List.filter_append]
  have f1 : (List.range n).filter (fun r => decide (r < n)) = List.range n :=
    List.filter_eq_self.mpr (fun a ha => by
      rw [List.mem_range] at ha
      simpa using ha)
  have f2 : ((List.range (P - n)).map (n + ·)).filter
      (fun r => decide (r < n)) = [] := by
    apply List.filter_eq_nil_iff.mpr
    intro a ha
    rw [List.mem_map] at ha
    obtain ⟨x, _, rfl⟩ := ha
    simp only [decide_eq_true_eq]
    omega
  rw [f1, f2, List.append_nil]

/-- C7 counterexample: at P = 5, M = 3 the contiguous placement produces
two pool roots (ranks 0 and 4) although the computed pool count N is 1,
so the roots list does not have exactly N entries. -/
theorem C7_counterexample : (poolRoots 5 3 false).length ≠ nPools 5 3 := by
  decide

/-- C7 amended: for every P ≥ 1, M ≥ 1, in remainder mode always and in
contiguous mode whenever P mod M0 ≤ floor(P / M0) for the clamped minimum
pool size M0 (the regime excluded by the counterexample), the roots list
has exactly N entries and its j-th entry is a member of pool j that is
the lowest-numbered global rank of that pool. -/
theorem C7_amended (P M : Nat) (mode : Bool) (hM : 1 ≤ M) (hP : 1 ≤ P)
    (hok : mode = true ∨ P % min M P ≤ P / min M P) :
    (poolRoots P M mode).length = nPools P M ∧
    (∀ j, j < nPools P M → ∃ x, (poolRoots P M mode)[j]? = some x ∧
      x ∈ poolMembers P M mode j ∧ ∀ y ∈ poolMembers P M mode j, x ≤ y) := by
  have hnpp1 : 1 ≤ min M P := le_min hM hP
  have hnppP : min M P ≤ P := min_le_right M P
  have hn1 : 1 ≤ P / min M P := (Nat.le_div_iff_mul_le (by omega)).mpr (by omega)
  have hnP : P / min M P ≤ P := Nat.div_le_self P _
  cases mode with
  | true =>
    have hpe : ∀ q, poolIndex P M true q = q % (P / min M P) :=
      fun q => poolIndex_true_eq P M q
    rw [poolRoots_remainder P M (P / min M P) hn1 hnP hpe, nPools_eq]
    refine ⟨List.length_range _, ?_⟩
    intro j hj
    refine ⟨j, List.getElem?_range hj, ?_, ?_⟩
    · unfold poolMembers
      rw [List.mem_filter]
      constructor
      · rw [List.mem_range]
        omega
      · simp only [hpe, beq_iff_eq]
        exact Nat.mod_eq_of_lt hj
    · intro y hy
      unfold poolMembers at hy
      rw [List.mem_filter] at hy
      have h2 := hy.2
      simp only [hpe, beq_iff_eq] at h2
      have h3 := Nat.mod_le y (P / min M P)
      omega
  | false =>
    have hres : P % min M P ≤ P / min M P := by
      rcases hok with h | h
      · exact absurd h (by simp)
      · exact h
    have hpe : ∀ q, poolIndex P M false q
        = contiguousId (min M P) (P % min M P) q :=
      fun q => poolIndex_false_eq P M q
    rw [poolRoots_contiguous P M (min M P) hnpp1 hpe hres, nPools_eq]
    constructor
    · rw [List.length_map, List.length_range]
    · intro j hj
      refine ⟨cstart (min M P) (P % min M P) j, ?_, ?_, ?_⟩
      · rw [List.getElem?_map, List.getElem?_range hj]
        rfl
      · rw [poolMembers_contiguous P M hM hP hres j hj, List.mem_range'_1]
        have hcl : 1 ≤ clen (min M P) (P % min M P) j := by
          simp only [clen]
          split <;> omega
        omega
      · intro y hy
        rw [poolMembers_contiguous P M hM hP hres j hj,
          List.mem_range'_1] at hy
        exact hy.1

/-- C7 witness: at P = 10, M = 3 in contiguous mode the roots list has
exactly N entries. -/
theorem C7_witness : (poolRoots 10 3 false).length = nPools 10 3 :=
  (C7_amended 10 3 false (by decide) (by decide) (Or.inr (by decide))).1

/-- C8: the code does not fail fast on a non-positive minimum pool size.
At nproc_per_pool = 0 (with 5 processes, a communicator present and
contiguous placement) pool_class.set_pool raises no error and returns
with the pool object untouched, because its whole body sits under the
guard nproc_per_pool > 0 and there is no else branch. -/
theorem C8_bug_eval : set_pool 5 0 true 0 false init_pool = Except.ok init_pool := by
  rfl

/-- C10: for every argument combination with nproc_per_pool ≤ 0,
pool_class.set_pool returns without raising and without modifying the
pool object, and the initial object has none of the attributes npp, n, i,
comm, rank, size, roots, rootcomm assigned and up = False. -/
theorem C10_theorem (P r : Nat) (c : Bool) (npp : Int) (m : Bool)
    (st : PoolState) (h : npp ≤ 0) :
    set_pool P r c npp m st = Except.ok st ∧
    init_pool.npp = none ∧ init_pool.n = none ∧ init_pool.i = none ∧
    init_pool.comm = none ∧ init_pool.rank = none ∧ init_pool.size = none ∧
    init_pool.roots = none ∧ init_pool.rootcomm = none ∧
    init_pool.up = false := by
  refine ⟨?_, rfl, rfl, rfl, rfl, rfl, rfl, rfl, rfl, rfl⟩
  unfold set_pool
  rw [if_neg (by omega)]

/-- C10 witness: the silent no-op evaluated at P = 4, rank 1,
nproc_per_pool = -2, contiguous mode, on the freshly initialised pool. -/
theorem C10_witness :
    set_pool 4 1 true (-2) false init_pool = Except.ok init_pool ∧
    init_pool.npp = none ∧ init_pool.n = none ∧ init_pool.i = none ∧
    init_pool.comm = none ∧ init_pool.rank = none ∧ init_pool.size = none ∧
    init_pool.roots = none ∧ init_pool.rootcomm = none ∧
    init_pool.up = false :=
  C10_theorem 4 1 true (-2) false init_pool (by decide)

/- ### Lemmas on the maximum reduction of rixs.rixs_f1 -/

lemma foldl_max_shift (l : List ℚ) : ∀ a b : ℚ,
    l.foldl max (max a b) = max a (l.foldl max b) := by
  induction l with
  | nil => intro a b; rfl
  | cons c t ih =>
    intro a b
    simp only [List.foldl_cons]
    rw [max_assoc, ih]

lemma le_foldl_max (l : List ℚ) : ∀ a : ℚ, a ≤ l.foldl max a := by
  induction l with
  | nil => intro a; exact le_refl a
  | cons c t ih =>
    intro a
    simp only [List.foldl_cons]
    exact le_trans (le_max_left a c) (ih (max a c))

lemma foldl_max_upper (l : List ℚ) : ∀ a x : ℚ, x ∈ l → x ≤ l.foldl max a := by
  induction l with
  | nil => intro a x hx; simp at hx
  | cons c t ih =>
    intro a x hx
    simp only [List.foldl_cons]
    rcases List.mem_cons.mp hx with h1 | h1
    · subst h1
      exact le_trans (le_max_right a x) (le_foldl_max t _)
    · exact ih _ x h1

lemma foldl_max_mem (l : List ℚ) : ∀ a : ℚ, l.foldl max a ∈ a :: l := by
  induction l with
  | nil => intro a; simp
  | cons c t ih =>
    intro a
    simp only [List.foldl_cons]
    rcases List.mem_cons.mp (ih (max a c)) with h1 | h1
    · rcases max_choice a c with h2 | h2
      · rw [h1, h2]
        exact List.mem_cons_self a _
      · rw [h1, h2]
        exact List.mem_cons_of_mem _ (List.mem_cons_self c t)
    · exact List.mem_cons_of_mem _ (List.mem_cons_of_mem _ h1)

lemma foldl_max_perm {l1 l2 : List ℚ} (h : l1.Perm l2) :
    ∀ a : ℚ, l1.foldl max a = l2.foldl max a := by
  induction h with
  | nil => intro a; rfl
  | cons x h ih =>
    intro a
    simp only [List.foldl_cons]
    exact ih _
  | swap x y l =>
    intro a
    simp only [List.foldl_cons]
    rw [sup_right_comm]
  | trans h1 h2 ih1 ih2 =>
    intro a
    rw [ih1, ih2]

lemma foldl_max_flatten (parts : List (List ℚ)) :
    (parts.map Mv1c1_max).foldl max 0 = parts.flatten.foldl max 0 := by
  induction parts with
  | nil => rfl
  | cons p ps ih =>
    simp only [List.map_cons, List.foldl_cons, List.flatten_cons,
      List.foldl_append, Mv1c1_max]
    have hx : (0 : ℚ) ≤ List.foldl max 0 p := le_foldl_max p 0
    rw [max_comm (0 : ℚ) (List.foldl max 0 p), foldl_max_shift, ih]
    conv_rhs => rw [← max_eq_left hx]
    rw [foldl_max_shift]

/-- C9: the global maximum of rixs.rixs_f1 (per-process foldl max from 0
over the locally held magnitudes, then an all-reduce with MAX over the
per-process maxima) equals the serial maximum over the full collection of
magnitudes: for non-negative values it is a member of the collection and
an upper bound of it, and it depends only on the multiset of values, not
on how they are partitioned among processes. -/
theorem C9_theorem (parts : List (List ℚ)) (allvals : List ℚ)
    (hperm : parts.flatten.Perm allvals) (hpos : ∀ x ∈ allvals, 0 ≤ x)
    (hne : allvals ≠ []) :
    Mv1c1_max_allreduce parts = Mv1c1_max allvals ∧
    Mv1c1_max allvals ∈ allvals ∧
    ∀ x ∈ allvals, x ≤ Mv1c1_max allvals := by
  have heq : Mv1c1_max_allreduce parts = Mv1c1_max allvals := by
    show (parts.map Mv1c1_max).foldl max 0 = allvals.foldl max 0
    rw [foldl_max_flatten, foldl_max_perm hperm]
  have hub : ∀ x ∈ allvals, x ≤ Mv1c1_max allvals :=
    fun x hx => foldl_max_upper allvals 0 x hx
  have hmem : Mv1c1_max allvals ∈ allvals := by
    have h := foldl_max_mem allvals 0
    rcases List.mem_cons.mp h with h1 | h1
    · obtain ⟨y, ys, rfl⟩ := List.exists_cons_of_ne_nil hne
      have hy : y ≤ (y :: ys).foldl max 0 :=
        foldl_max_upper (y :: ys) 0 y (List.mem_cons_self y ys)
      have hy0 : 0 ≤ y := hpos y (List.mem_cons_self y ys)
      have hy1 : y = 0 := le_antisymm (by rw [h1] at hy; exact hy) hy0
      show (y :: ys).foldl max 0 ∈ y :: ys
      rw [h1, hy1]
      exact List.mem_cons_self 0 ys
    · exact h1
  exact ⟨heq, hmem, hub⟩

/-- C9 witness: two processes holding the magnitudes [2] and [1, 3]
produce the same all-reduced maximum as the serial computation over the
reordered full collection [3, 2, 1], namely its member and upper bound. -/
theorem C9_witness :
    Mv1c1_max_allreduce [[2], [1, 3]] = Mv1c1_max [3, 2, 1] ∧
    Mv1c1_max [3, 2, 1] ∈ ([3, 2, 1] : List ℚ) ∧
    ∀ x ∈ ([3, 2, 1] : List ℚ), x ≤ Mv1c1_max [3, 2, 1] :=
  C9_theorem [[2], [1, 3]] [3, 2, 1] (by decide) (by decide) (by decide)
